import Mathlib

/-!
Verification of the portfolio analytics core of daviddagyei/portfolio-manager.

The analytics code that lives in the repository's frontend
(`optimizationService.ts`, the rebalancing component, the risk-analytics
page, the return-distribution chart) is embedded below over `ℚ`; JavaScript
numbers are modelled as exact rationals except where division by zero
matters, where the IEEE outcomes (infinities, NaN) are modelled explicitly.
The backend optimizer, rebalancing advisor and VaR engine are not part of
the repository snapshot (only their TypeScript declarations and callers
are), so those components are modelled from the specification text and
marked as such in their doc comments.
-/

namespace PortfolioManager

/-! ## Weight maps

TypeScript `Record<string, number>` values are embedded as association
lists; `wlookup` is `m[k] || 0` (a missing key reads as weight 0). -/

/-- Lookup in a weight map with default 0, as `weights[asset] || 0` reads. -/
def wlookup (m : List (String × ℚ)) (k : String) : ℚ :=
  match m.find? (fun p => p.1 == k) with
  | some p => p.2
  | none => 0

/-- Union of the key sets of two weight maps, as
`new Set([...Object.keys(currentWeights), ...Object.keys(targetWeights)])`
builds it. -/
def unionKeys (c t : List (String × ℚ)) : List String :=
  (c.map Prod.fst ++ t.map Prod.fst).dedup

/-- Embedding of `calculateTurnover` from
`src/frontend/src/services/optimizationService.ts` (lines 390-404): sum of
`|targetWeight - currentWeight|` over the union of the key sets, divided
by 2. -/
def calculateTurnover (c t : List (String × ℚ)) : ℚ :=
  ((unionKeys c t).map (fun a => |wlookup t a - wlookup c a|)).sum / 2

/-- Total of the values of a weight map, as
`Object.values(targetWeights).reduce((sum, weight) => sum + weight, 0)`. -/
def totalWeight (m : List (String × ℚ)) : ℚ :=
  (m.map Prod.snd).sum

/-- Embedding of `normalizeWeights` from the portfolio-rebalancing
component (`src/unnamed/part_000` family, lines 149-161): when the total is
strictly positive every entry is divided by it, otherwise the map is left
as it is. -/
def normalizeWeights (m : List (String × ℚ)) : List (String × ℚ) :=
  let T := totalWeight m
  if 0 < T then m.map (fun p => (p.1, p.2 / T)) else m

/-! ### Helper lemmas about weight maps -/

theorem mem_unionKeys {c t : List (String × ℚ)} {a : String} :
    a ∈ unionKeys c t ↔ a ∈ c.map Prod.fst ∨ a ∈ t.map Prod.fst := by
  simp [unionKeys, List.mem_dedup, List.mem_append]

theorem unionKeys_comm_perm (c t : List (String × ℚ)) :
    (unionKeys c t).Perm (unionKeys t c) := by
  have h1 : (unionKeys c t).Nodup := List.nodup_dedup _
  have h2 : (unionKeys t c).Nodup := List.nodup_dedup _
  refine (List.perm_ext_iff_of_nodup h1 h2).2 (fun a => ?_)
  rw [mem_unionKeys, mem_unionKeys]
  exact or_comm

/-- A sum of absolute values over a list is zero exactly when every term
is zero. -/
theorem sum_abs_eq_zero_iff {α : Type} (l : List α) (f : α → ℚ) :
    (l.map (fun a => |f a|)).sum = 0 ↔ ∀ a ∈ l, f a = 0 := by
  induction l with
  | nil => simp
  | cons x xs ih =>
    simp only [List.map_cons, List.sum_cons, List.mem_cons]
    constructor
    · intro h
      have hx : 0 ≤ |f x| := abs_nonneg _
      have hxs : 0 ≤ (xs.map (fun a => |f a|)).sum :=
        List.sum_nonneg (by intro y hy; simp only [List.mem_map] at hy
                            obtain ⟨z, _, rfl⟩ := hy; exact abs_nonneg _)
      have h1 : |f x| = 0 := by linarith
      have h2 : (xs.map (fun a => |f a|)).sum = 0 := by linarith
      refine fun a ha => ha.elim (fun h => ?_) (fun h => (ih.1 h2) a h)
      subst h; exact abs_eq_zero.1 h1
    · intro h
      have h1 : |f x| = 0 := abs_eq_zero.2 (h x (Or.inl rfl))
      have h2 : (xs.map (fun a => |f a|)).sum = 0 :=
        ih.2 (fun a ha => h a (Or.inr ha))
      rw [h1, h2, add_zero]

/-- Dividing every element of a list by a constant divides the sum. -/
theorem sum_map_div (l : List ℚ) (T : ℚ) :
    (l.map (fun x => x / T)).sum = l.sum / T := by
  induction l with
  | nil => simp
  | cons x xs ih => simp [List.sum_cons, ih, add_div]

/-! ## C8: turnover -/

/-- C8: `calculateTurnover(current, target)` equals one half of the sum,
over every asset in the union of the two key sets, of the absolute weight
delta (a missing asset counting as weight 0); it is symmetric in its two
arguments, and it is 0 exactly when the two maps agree on every asset of
the union. -/
theorem calculateTurnover_spec (c t : List (String × ℚ)) :
    calculateTurnover c t
        = ((unionKeys c t).map (fun a => |wlookup t a - wlookup c a|)).sum / 2
    ∧ calculateTurnover c t = calculateTurnover t c
    ∧ (calculateTurnover c t = 0 ↔
        ∀ a, (a ∈ c.map Prod.fst ∨ a ∈ t.map Prod.fst) →
          wlookup c a = wlookup t a) := by
  refine ⟨rfl, ?_, ?_⟩
  · unfold calculateTurnover
    have h1 : (unionKeys c t).map (fun a => |wlookup t a - wlookup c a|)
        = (unionKeys c t).map (fun a => |wlookup c a - wlookup t a|) :=
      List.map_congr_left (fun a _ => abs_sub_comm _ _)
    have h2 : ((unionKeys c t).map (fun a => |wlookup c a - wlookup t a|)).Perm
        ((unionKeys t c).map (fun a => |wlookup c a - wlookup t a|)) :=
      (unionKeys_comm_perm c t).map _
    rw [h1, h2.sum_eq]
  · unfold calculateTurnover
    rw [div_eq_zero_iff]
    have h2 : (2 : ℚ) ≠ 0 := by norm_num
    simp only [h2, or_false]
    rw [sum_abs_eq_zero_iff]
    constructor
    · intro h a ha
      have := h a (mem_unionKeys.2 ha)
      linarith [this]
    · intro h a ha
      have := h a (mem_unionKeys.1 ha)
      linarith [this]

/-- Witness for C8 at the concrete maps `{A: 0.6}` and `{A: 0.5, B: 0.1}`. -/
theorem calculateTurnover_spec_witness :
    calculateTurnover [("A", 3/5)] [("A", 1/2), ("B", 1/10)]
      = calculateTurnover [("A", 1/2), ("B", 1/10)] [("A", 3/5)] :=
  (calculateTurnover_spec [("A", 3/5)] [("A", 1/2), ("B", 1/10)]).2.1

/-! ## C9: weight normalization -/

/-- C9: when the target weights total is strictly positive,
`normalizeWeights` divides every entry by the old total and the resulting
weights sum to exactly 1; when the total is 0 or negative, the map is left
unchanged. -/
theorem normalizeWeights_spec (m : List (String × ℚ)) :
    (0 < totalWeight m →
      normalizeWeights m = m.map (fun p => (p.1, p.2 / totalWeight m))
        ∧ totalWeight (normalizeWeights m) = 1)
    ∧ (totalWeight m ≤ 0 → normalizeWeights m = m) := by
  constructor
  · intro hT
    have hmap : normalizeWeights m = m.map (fun p => (p.1, p.2 / totalWeight m)) := by
      unfold normalizeWeights
      simp only [hT, if_pos]
    refine ⟨hmap, ?_⟩
    have key : ∀ (l : List (String × ℚ)) (T : ℚ),
        totalWeight (l.map (fun p => (p.1, p.2 / T))) = totalWeight l / T := by
      intro l T
      unfold totalWeight
      rw [List.map_map]
      have hc : (l.map (Prod.snd ∘ fun p : String × ℚ => (p.1, p.2 / T)))
          = (l.map Prod.snd).map (fun x => x / T) := by
        rw [List.map_map]; rfl
      rw [hc, sum_map_div]
    rw [hmap, key, div_self (ne_of_gt hT)]
  · intro hT
    unfold normalizeWeights
    have : ¬ (0 < totalWeight m) := not_lt.2 hT
    simp only [this, if_neg, ite_false]

/-- Witness for C9 at the concrete map `{A: 1, B: 3}`. -/
theorem normalizeWeights_spec_witness :
    totalWeight (normalizeWeights [("A", 1), ("B", 3)]) = 1 :=
  ((normalizeWeights_spec [("A", 1), ("B", 3)]).1 (by norm_num [totalWeight])).2

/-! ## Drawdowns (risk analytics page)

`Math.max(...arr.slice(0, i + 1))` and `Math.min(...)` over a nonempty
slice are folds of `max`/`min` over the slice; the empty case (never hit,
because the slice always holds the current point) is given the placeholder
value 0. -/

/-- Maximum of a list, as `Math.max(...)` over a nonempty argument list. -/
def jsMax : List ℚ → ℚ
  | [] => 0
  | x :: xs => xs.foldl max x

/-- Minimum of a list, as `Math.min(...)` over a nonempty argument list. -/
def jsMin : List ℚ → ℚ
  | [] => 0
  | x :: xs => xs.foldl min x

/-- Embedding of the per-point drawdown series built by the risk analytics
page (`src/unnamed/part_018`, lines 887-901): at index `i` the running peak
is the maximum of the values up to and including `i`, and the drawdown is
`(value - peak) / peak`. -/
def drawdowns (values : List ℚ) : List ℚ :=
  (List.range values.length).map (fun i =>
    (values.getD i 0 - jsMax (values.take (i + 1))) / jsMax (values.take (i + 1)))

/-- Maximum drawdown: the minimum (most negative) drawdown over the series,
as the specification defines it from the per-point drawdowns. -/
def maxDrawdown (values : List ℚ) : ℚ :=
  jsMin (drawdowns values)

theorem le_foldl_max : ∀ (xs : List ℚ) (a : ℚ), a ≤ xs.foldl max a := by
  intro xs
  induction xs with
  | nil => intro a; exact le_refl a
  | cons x xs ih =>
    intro a
    exact le_trans (le_max_left a x) (ih (max a x))

theorem mem_le_foldl_max : ∀ (xs : List ℚ) (a x : ℚ), x ∈ xs → x ≤ xs.foldl max a := by
  intro xs
  induction xs with
  | nil => intro a x hx; exact absurd hx (List.not_mem_nil x)
  | cons y ys ih =>
    intro a x hx
    rcases List.mem_cons.1 hx with h | h
    · subst h
      exact le_trans (le_max_right a x) (le_foldl_max ys (max a x))
    · exact ih (max a y) x h

theorem foldl_max_mem : ∀ (xs : List ℚ) (a : ℚ), xs.foldl max a = a ∨ xs.foldl max a ∈ xs := by
  intro xs
  induction xs with
  | nil => intro a; exact Or.inl rfl
  | cons x xs ih =>
    intro a
    rcases ih (max a x) with h | h
    · rcases max_choice a x with hm | hm
      · exact Or.inl (by rw [List.foldl_cons, h, hm])
      · refine Or.inr (List.mem_cons.2 (Or.inl ?_))
        rw [List.foldl_cons, h, hm]
    · exact Or.inr (List.mem_cons.2 (Or.inr h))

theorem jsMax_mem {l : List ℚ} (h : l ≠ []) : jsMax l ∈ l := by
  match l, h with
  | x :: xs, _ =>
    rcases foldl_max_mem xs x with h1 | h1
    · rw [jsMax, h1]; exact List.mem_cons_self x xs
    · rw [jsMax]; exact List.mem_cons.2 (Or.inr h1)

theorem le_jsMax {l : List ℚ} {x : ℚ} (h : x ∈ l) : x ≤ jsMax l := by
  match l, h with
  | y :: ys, h =>
    rcases List.mem_cons.1 h with h1 | h1
    · subst h1; rw [jsMax]; exact le_foldl_max ys x
    · rw [jsMax]; exact mem_le_foldl_max ys y x h1

theorem foldl_min_le : ∀ (xs : List ℚ) (a : ℚ), xs.foldl min a ≤ a := by
  intro xs
  induction xs with
  | nil => intro a; exact le_refl a
  | cons x xs ih =>
    intro a
    exact le_trans (ih (min a x)) (min_le_left a x)

theorem foldl_min_mem : ∀ (xs : List ℚ) (a : ℚ), xs.foldl min a = a ∨ xs.foldl min a ∈ xs := by
  intro xs
  induction xs with
  | nil => intro a; exact Or.inl rfl
  | cons x xs ih =>
    intro a
    rcases ih (min a x) with h | h
    · rcases min_choice a x with hm | hm
      · exact Or.inl (by rw [List.foldl_cons, h, hm])
      · refine Or.inr (List.mem_cons.2 (Or.inl ?_))
        rw [List.foldl_cons, h, hm]
    · exact Or.inr (List.mem_cons.2 (Or.inr h))

theorem jsMin_mem {l : List ℚ} (h : l ≠ []) : jsMin l ∈ l := by
  match l, h with
  | x :: xs, _ =>
    rcases foldl_min_mem xs x with h1 | h1
    · rw [jsMin, h1]; exact List.mem_cons_self x xs
    · rw [jsMin]; exact List.mem_cons.2 (Or.inr h1)

/-! ## C2: drawdown bounds -/

/-- C2: over a series of strictly positive cumulative portfolio values,
every per-point drawdown `(value - runningPeak)/runningPeak` (the peak
including the current point) lies in `[-1, 0]`, and so does the maximum
drawdown, the minimum drawdown over a nonempty series. -/
theorem drawdown_bounds (values : List ℚ) (hpos : ∀ v ∈ values, 0 < v) :
    (∀ d ∈ drawdowns values, -1 ≤ d ∧ d ≤ 0)
    ∧ (values ≠ [] → -1 ≤ maxDrawdown values ∧ maxDrawdown values ≤ 0) := by
  have hmain : ∀ d ∈ drawdowns values, -1 ≤ d ∧ d ≤ 0 := by
    intro d hd
    rw [drawdowns, List.mem_map] at hd
    obtain ⟨i, hi, rfl⟩ := hd
    rw [List.mem_range] at hi
    set pre := values.take (i + 1) with hpre
    have hpre_ne : pre ≠ [] := by
      have : pre.length = min (i + 1) values.length := List.length_take _ _
      intro hnil
      rw [hnil] at this
      simp only [List.length_nil] at this
      omega
    have hpeak_mem : jsMax pre ∈ values := by
      have h1 : jsMax pre ∈ pre := jsMax_mem hpre_ne
      exact List.mem_of_mem_take h1
    have hpeak_pos : 0 < jsMax pre := hpos _ hpeak_mem
    have hv_eq : values.getD i 0 = values[i] := List.getD_eq_getElem values 0 hi
    have hlen : i < pre.length := by
      rw [hpre, List.length_take]; omega
    have hv_mem_pre : values[i] ∈ pre := by
      have hp : pre.get ⟨i, hlen⟩ = values[i] := by
        simp [hpre, List.get_eq_getElem, List.getElem_take]
      rw [← hp]
      exact List.get_mem pre i hlen
    have hv_le : values.getD i 0 ≤ jsMax pre := by
      rw [hv_eq]; exact le_jsMax hv_mem_pre
    have hv_pos : 0 < values.getD i 0 := by
      rw [hv_eq]; exact hpos _ (List.getElem_mem hi)
    constructor
    · rw [le_div_iff₀ hpeak_pos]
      nlinarith
    · apply div_nonpos_of_nonpos_of_nonneg
      · linarith
      · linarith
  refine ⟨hmain, fun hne => ?_⟩
  have hdd_ne : drawdowns values ≠ [] := by
    rw [drawdowns]
    intro h
    have := congrArg List.length h
    simp only [List.length_map, List.length_range, List.length_nil] at this
    exact hne (List.length_eq_zero.1 this)
  have hmem : jsMin (drawdowns values) ∈ drawdowns values := jsMin_mem hdd_ne
  rw [maxDrawdown]
  exact hmain _ hmem

/-- Witness for C2 at the concrete value series `[1, 2, 1]`. -/
theorem drawdown_bounds_witness :
    (∀ v ∈ [(1 : ℚ), 2, 1], 0 < v)
    ∧ (∀ d ∈ drawdowns [(1 : ℚ), 2, 1], -1 ≤ d ∧ d ≤ 0) := by
  refine ⟨by decide, (drawdown_bounds [(1 : ℚ), 2, 1] (by decide)).1⟩

/-! ## C1: the Sharpe estimate of the return-distribution chart

JavaScript floating-point division by zero does not raise and does not
yield 0: `x / 0` is `Infinity` for `x > 0`, `-Infinity` for `x < 0` and
`NaN` for `x = 0`. `JSNum` models exactly this portion of the IEEE
semantics; all other divisions are exact. -/

/-- A JavaScript number: finite value, infinity of either sign, or NaN. -/
inductive JSNum where
  | fin : ℚ → JSNum
  | posInf : JSNum
  | negInf : JSNum
  | nan : JSNum
  deriving DecidableEq

/-- JavaScript division, including the zero-divisor cases. -/
def jsDiv (a b : ℚ) : JSNum :=
  if b = 0 then
    if 0 < a then JSNum.posInf else if a < 0 then JSNum.negInf else JSNum.nan
  else JSNum.fin (a / b)

/-- Embedding of `extendedStats.sharpeEstimate` from
`src/frontend/src/components/charts/EnhancedReturnDistribution.tsx`
(line 117): `data.statistics.mean / data.statistics.standardDeviation`,
with no guard for a zero standard deviation. -/
def sharpeEstimate (mean std : ℚ) : JSNum :=
  jsDiv mean std

/-- Mean of a return series. -/
def seriesMean (l : List ℚ) : ℚ :=
  l.sum / l.length

/-- Population variance of a return series; it is 0 exactly when the
standard deviation is 0, so it witnesses a zero-volatility series without
needing square roots. -/
def seriesVariance (l : List ℚ) : ℚ :=
  ((l.map (fun x => (x - seriesMean l) ^ 2)).sum) / l.length

/-- C1 (evaluation at the failing input): the constant return series
`[0.01, 0.01, 0.01]` has per-period variance 0, hence standard deviation
exactly 0, but `sharpeEstimate` evaluates to `Infinity` there — not the
sentinel 0 the specification requires, and not a finite number at all. -/
theorem sharpeEstimate_zero_vol_not_zero :
    seriesVariance [1/100, 1/100, 1/100] = 0
    ∧ sharpeEstimate (seriesMean [1/100, 1/100, 1/100]) 0 = JSNum.posInf
    ∧ JSNum.posInf ≠ JSNum.fin 0 := by
  refine ⟨?_, ?_, by decide⟩
  · norm_num [seriesVariance, seriesMean]
  · norm_num [sharpeEstimate, jsDiv, seriesMean]

/-! ## C6: VaR ordering in the return-distribution statistics -/

/-- Embedding of the `statistics.var95` field built by the risk analytics
page (`src/unnamed/part_018`, line 924): the risk engine's basic
`var_95` figure, passed through. -/
def returnDistVar95 (basicVar95 : ℚ) : ℚ :=
  basicVar95

/-- Embedding of the `statistics.var99` field built by the risk analytics
page (`src/unnamed/part_018`, line 925): `var_95 * 1.5`. -/
def returnDistVar99 (basicVar95 : ℚ) : ℚ :=
  basicVar95 * (3 / 2)

/-- C6: for a fixed series (a fixed basic `var_95` figure), the reported
99% VaR is at least as large in magnitude as the reported 95% VaR. -/
theorem var99_magnitude_ge_var95 (v : ℚ) :
    |returnDistVar95 v| ≤ |returnDistVar99 v| := by
  unfold returnDistVar95 returnDistVar99
  rw [abs_mul]
  have h32 : |(3 / 2 : ℚ)| = 3 / 2 := by norm_num
  rw [h32]
  nlinarith [abs_nonneg v]

/-- Witness for C6 at the concrete 95% VaR figure `-0.02`. -/
theorem var99_magnitude_ge_var95_witness :
    |returnDistVar95 (-(1/50))| ≤ |returnDistVar99 (-(1/50))| :=
  var99_magnitude_ge_var95 (-(1/50))

/-! ## C4: the rebalancing advisor's tolerance band -/

/-- Modelled from the spec: the backend Rebalancing Advisor that computes
`rebalancing_needed` is not part of the repository snapshot (the frontend
only submits the request and renders the returned flag). Specification
§4.4: "for each asset in the union of current/target symbol sets,
delta = target − current; rebalancing is flagged 'needed' if any
\|delta\| > tolerance". -/
def rebalancingNeeded (c t : List (String × ℚ)) (tol : ℚ) : Bool :=
  (unionKeys c t).any (fun a => decide (tol < |wlookup t a - wlookup c a|))

/-- C4: the advisor reports `rebalancing_needed = true` exactly when some
asset in the union of the current and target symbol sets has
`|target − current| > tolerance`; in particular current `{A: 0.6, B: 0.4}`
against target `{A: 0.5, B: 0.5}` with tolerance `0.05` is flagged. -/
theorem rebalancingNeeded_spec (c t : List (String × ℚ)) (tol : ℚ) :
    (rebalancingNeeded c t tol = true ↔
      ∃ a, (a ∈ c.map Prod.fst ∨ a ∈ t.map Prod.fst)
        ∧ tol < |wlookup t a - wlookup c a|)
    ∧ rebalancingNeeded [("A", 3/5), ("B", 2/5)] [("A", 1/2), ("B", 1/2)] (1/20)
        = true := by
  constructor
  · rw [rebalancingNeeded, List.any_eq_true]
    constructor
    · rintro ⟨a, ha, hd⟩
      exact ⟨a, mem_unionKeys.1 ha, of_decide_eq_true hd⟩
    · rintro ⟨a, ha, hd⟩
      exact ⟨a, mem_unionKeys.2 ha, decide_eq_true hd⟩
  · simp only [rebalancingNeeded, unionKeys, wlookup]
    norm_num [List.dedup, List.any, List.find?]
    left
    rw [abs_of_pos (by norm_num : (0 : ℚ) < 1 / 10)]
    norm_num

/-- Witness for C4 at the spec's concrete scenario. -/
theorem rebalancingNeeded_spec_witness :
    rebalancingNeeded [("A", 3/5), ("B", 2/5)] [("A", 1/2), ("B", 1/2)] (1/20)
      = true :=
  (rebalancingNeeded_spec [("A", 3/5)] [] 0).2

/-! ## C5: trade recommendations -/

/-- Per-asset action of a trade recommendation. -/
inductive TradeAction where
  | buy : TradeAction
  | sell : TradeAction
  | hold : TradeAction
  deriving DecidableEq

/-- Truncation of a rational toward zero: floor for nonnegative arguments,
negated floor of the negation otherwise. -/
def qtrunc (q : ℚ) : ℤ :=
  if 0 ≤ q then ⌊q⌋ else -⌊-q⌋

/-- The parts of a `TradeRecommendation` this claim is about. -/
structure TradeRec where
  action : TradeAction
  dollarAmount : ℚ
  sharesToTrade : ℤ

/-- Modelled from the spec: the backend code generating
`TradeRecommendation` values is not part of the repository snapshot (only
its TypeScript declaration in `optimizationService.ts` is). Specification
§4.4: "Dollar amount = delta × total portfolio value; shares = dollar
amount / current price, rounded toward zero ... Action label: buy if
delta > 0, sell if delta < 0, hold otherwise." -/
def mkTradeRec (cw tw price total : ℚ) : TradeRec :=
  let delta := tw - cw
  { action := if 0 < delta then TradeAction.buy
      else if delta < 0 then TradeAction.sell else TradeAction.hold
    dollarAmount := delta * total
    sharesToTrade := qtrunc (delta * total / price) }

theorem qtrunc_abs (q : ℚ) :
    |((qtrunc q : ℤ) : ℚ)| ≤ |q| ∧ |q| < |((qtrunc q : ℤ) : ℚ)| + 1 := by
  unfold qtrunc
  by_cases h : 0 ≤ q
  · rw [if_pos h]
    have h0 : (0 : ℤ) ≤ ⌊q⌋ := Int.floor_nonneg.2 h
    have h0Q : (0 : ℚ) ≤ ((⌊q⌋ : ℤ) : ℚ) := by exact_mod_cast h0
    rw [abs_of_nonneg h, abs_of_nonneg h0Q]
    exact ⟨Int.floor_le q, Int.lt_floor_add_one q⟩
  · rw [if_neg h]
    push_neg at h
    have h1 : 0 < -q := by linarith
    have h0 : (0 : ℤ) ≤ ⌊-q⌋ := Int.floor_nonneg.2 (le_of_lt h1)
    have h0Q : (0 : ℚ) ≤ ((⌊-q⌋ : ℤ) : ℚ) := by exact_mod_cast h0
    rw [abs_of_neg h]
    push_cast
    rw [abs_neg, abs_of_nonneg h0Q]
    exact ⟨Int.floor_le (-q), Int.lt_floor_add_one (-q)⟩

/-- C5: a trade recommendation's dollar amount is the weight delta times
total portfolio value; the action is `buy` exactly when the delta is
positive, `sell` exactly when it is negative, `hold` exactly on equality;
the share count is the dollar amount over the price rounded toward zero
(its magnitude is the floor of the quotient's magnitude); and for a second,
complementary fully-invested asset the dollar amounts cancel exactly. -/
theorem tradeRec_spec (cw tw price total : ℚ) :
    (mkTradeRec cw tw price total).dollarAmount = (tw - cw) * total
    ∧ ((mkTradeRec cw tw price total).action = TradeAction.buy ↔ cw < tw)
    ∧ ((mkTradeRec cw tw price total).action = TradeAction.sell ↔ tw < cw)
    ∧ ((mkTradeRec cw tw price total).action = TradeAction.hold ↔ tw = cw)
    ∧ |((mkTradeRec cw tw price total).sharesToTrade : ℚ)|
        ≤ |(tw - cw) * total / price|
    ∧ |(tw - cw) * total / price|
        < |((mkTradeRec cw tw price total).sharesToTrade : ℚ)| + 1
    ∧ (mkTradeRec cw tw price total).dollarAmount
        + (mkTradeRec (1 - cw) (1 - tw) price total).dollarAmount = 0 := by
  have htr := qtrunc_abs ((tw - cw) * total / price)
  have haction : (mkTradeRec cw tw price total).action
      = if 0 < tw - cw then TradeAction.buy
        else if tw - cw < 0 then TradeAction.sell else TradeAction.hold := rfl
  refine ⟨rfl, ?_, ?_, ?_, htr.1, htr.2, by unfold mkTradeRec; ring⟩
  · rw [haction]
    split_ifs with h1 h2
    · exact iff_of_true rfl (by linarith)
    · exact iff_of_false (by intro hh; cases hh) (by intro hh; exact h1 (by linarith))
    · exact iff_of_false (by intro hh; cases hh) (by intro hh; exact h1 (by linarith))
  · rw [haction]
    split_ifs with h1 h2
    · exact iff_of_false (by intro hh; cases hh) (by intro hh; linarith)
    · exact iff_of_true rfl (by linarith)
    · exact iff_of_false (by intro hh; cases hh) (by intro hh; exact h2 (by linarith))
  · rw [haction]
    split_ifs with h1 h2
    · exact iff_of_false (by intro hh; cases hh) (by intro hh; rw [hh] at h1; linarith)
    · exact iff_of_false (by intro hh; cases hh) (by intro hh; rw [hh] at h2; linarith)
    · exact iff_of_true rfl (by linarith)

/-- Witness for C5 at the spec's concrete scenario: current weights
`{A: 0.6, B: 0.4}`, target `{A: 0.5, B: 0.5}`, total value 10000 — the
sell-A and buy-B dollar amounts cancel. -/
theorem tradeRec_spec_witness :
    (mkTradeRec (3/5) (1/2) 100 10000).dollarAmount
      + (mkTradeRec (1 - 3/5) (1 - 1/2) 100 10000).dollarAmount = 0 :=
  (tradeRec_spec (3/5) (1/2) 100 10000).2.2.2.2.2.2

/-! ## C7: efficient-frontier monotonicity -/

/-- A candidate portfolio as the frontier solver sees it: its expected
return and its volatility. -/
structure CandPoint where
  ret : ℚ
  vol : ℚ

/-- Minimum of a list of rationals, `none` on the empty list. -/
def listMinQ : List ℚ → Option ℚ
  | [] => none
  | x :: xs => some (xs.foldl min x)

/-- Modelled from the spec: the backend Mean-Variance Optimizer that traces
the efficient frontier is not part of the repository snapshot (only the
`FrontierPoint` declaration and its callers are). Specification §4.3
samples target returns and at each solves the target-return objective,
"minimize volatility subject to return ≥ target": the feasible set at a
target `r` is the candidates with return at least `r`. -/
def feasibleAt (cands : List CandPoint) (r : ℚ) : List CandPoint :=
  cands.filter (fun p => decide (r ≤ p.ret))

/-- Modelled from the spec: the volatility of the frontier point solved at
target return `r` — the minimum volatility over the feasible candidates,
`none` when the target is infeasible. -/
def frontierVol (cands : List CandPoint) (r : ℚ) : Option ℚ :=
  listMinQ ((feasibleAt cands r).map CandPoint.vol)

theorem mem_le_foldl_min : ∀ (xs : List ℚ) (a x : ℚ), x ∈ xs → xs.foldl min a ≤ x := by
  intro xs
  induction xs with
  | nil => intro a x hx; exact absurd hx (List.not_mem_nil x)
  | cons y ys ih =>
    intro a x hx
    rcases List.mem_cons.1 hx with h | h
    · subst h
      exact le_trans (foldl_min_le ys (min a x)) (min_le_right a x)
    · exact ih (min a y) x h

theorem listMinQ_spec {l : List ℚ} {m : ℚ} (h : listMinQ l = some m) :
    m ∈ l ∧ ∀ x ∈ l, m ≤ x := by
  match l, h with
  | x :: xs, h =>
    have hm : m = xs.foldl min x := by
      rw [listMinQ] at h
      exact (Option.some_injective ℚ h).symm
    constructor
    · rw [hm]
      rcases foldl_min_mem xs x with h1 | h1
      · rw [h1]; exact List.mem_cons_self x xs
      · exact List.mem_cons.2 (Or.inr h1)
    · intro y hy
      rcases List.mem_cons.1 hy with h1 | h1
      · subst h1; rw [hm]; exact foldl_min_le xs y
      · rw [hm]; exact mem_le_foldl_min xs x y h1

theorem listMinQ_isSome {l : List ℚ} (h : l ≠ []) : ∃ m, listMinQ l = some m := by
  match l, h with
  | x :: xs, _ => exact ⟨xs.foldl min x, rfl⟩

/-- C7: for target returns `r1 < r2` with the frontier solvable at `r2`,
the frontier point solved at `r1` exists and its volatility is at most the
volatility of the point solved at `r2`. -/
theorem frontierVol_monotone (cands : List CandPoint) (r1 r2 v2 : ℚ)
    (hr : r1 < r2) (h2 : frontierVol cands r2 = some v2) :
    ∃ v1, frontierVol cands r1 = some v1 ∧ v1 ≤ v2 := by
  have hspec2 := listMinQ_spec h2
  have hv2_mem : v2 ∈ (feasibleAt cands r2).map CandPoint.vol := hspec2.1
  rw [List.mem_map] at hv2_mem
  obtain ⟨p, hp_mem, hp_vol⟩ := hv2_mem
  have hp_feas2 := List.mem_filter.1 hp_mem
  have hp_ret : r2 ≤ p.ret := of_decide_eq_true hp_feas2.2
  have hp_feas1 : p ∈ feasibleAt cands r1 :=
    List.mem_filter.2 ⟨hp_feas2.1, decide_eq_true (le_trans (le_of_lt hr) hp_ret)⟩
  have hne : (feasibleAt cands r1).map CandPoint.vol ≠ [] := by
    intro hnil
    have : p.vol ∈ (feasibleAt cands r1).map CandPoint.vol :=
      List.mem_map.2 ⟨p, hp_feas1, rfl⟩
    rw [hnil] at this
    exact List.not_mem_nil _ this
  obtain ⟨v1, hv1⟩ := listMinQ_isSome hne
  refine ⟨v1, hv1, ?_⟩
  have hle := (listMinQ_spec hv1).2 p.vol (List.mem_map.2 ⟨p, hp_feas1, rfl⟩)
  rw [hp_vol] at hle
  exact hle

/-- Witness for C7: two candidates, returns 0 and 1 with volatilities 2
and 3; at target 1 the frontier volatility is 3, at target 0 it exists and
is at most 3. -/
theorem frontierVol_monotone_witness :
    (0 : ℚ) < 1
    ∧ frontierVol [CandPoint.mk 0 2, CandPoint.mk 1 3] 1 = some 3
    ∧ ∃ v1, frontierVol [CandPoint.mk 0 2, CandPoint.mk 1 3] 0 = some v1 ∧ v1 ≤ 3 := by
  refine ⟨by norm_num, by rfl, frontierVol_monotone _ 0 1 3 (by norm_num) (by rfl)⟩

/-! ## C3: feasibility of optimizer output -/

/-- The applicable lower and upper bound of one asset's weight. -/
structure WBound where
  lo : ℚ
  hi : ℚ

/-- Modelled from the spec: the backend Mean-Variance Optimizer is not part
of the repository snapshot (only the `OptimizedPortfolio` declaration and
its callers are). Specification §3/§4.3: a returned solution satisfies the
linear equality (weights sum to 1) and the bound inequalities. The
feasible point the solver returns is modelled by the canonical greedy
construction: start every asset at its lower bound and hand the remaining
mass to the assets in order, each up to its upper bound. -/
def fillWeights : List WBound → ℚ → List ℚ
  | [], _ => []
  | b :: bs, r =>
    (b.lo + min r (b.hi - b.lo)) :: fillWeights bs (r - min r (b.hi - b.lo))

/-- The weight vector the modelled optimizer returns for a bound set. -/
def optimizeFeasible (bs : List WBound) : List ℚ :=
  fillWeights bs (1 - (bs.map WBound.lo).sum)

/-- Sum of elementwise differences of two mapped lists. -/
theorem sum_map_sub (bs : List WBound) :
    (bs.map (fun b => b.hi - b.lo)).sum
      = (bs.map WBound.hi).sum - (bs.map WBound.lo).sum := by
  induction bs with
  | nil => simp
  | cons b bs ih => simp only [List.map_cons, List.sum_cons, ih]; ring

theorem fillWeights_sum : ∀ (bs : List WBound) (r : ℚ),
    (∀ b ∈ bs, b.lo ≤ b.hi) → 0 ≤ r →
    r ≤ (bs.map (fun b => b.hi - b.lo)).sum →
    (fillWeights bs r).sum = (bs.map WBound.lo).sum + r := by
  intro bs
  induction bs with
  | nil =>
    intro r _ h0 hc
    simp only [List.map_nil, List.sum_nil] at hc
    simp [fillWeights, le_antisymm hc h0]
  | cons b bs ih =>
    intro r hb h0 hc
    have hble : b.lo ≤ b.hi := hb b (List.mem_cons_self b bs)
    have hcap0 : 0 ≤ b.hi - b.lo := by linarith
    have htail0 : 0 ≤ (bs.map (fun x => x.hi - x.lo)).sum := by
      apply List.sum_nonneg
      intro x hx
      rw [List.mem_map] at hx
      obtain ⟨y, hy, rfl⟩ := hx
      have := hb y (List.mem_cons_of_mem b hy)
      linarith
    have hstep0 : 0 ≤ min r (b.hi - b.lo) := le_min h0 hcap0
    have hr0 : 0 ≤ r - min r (b.hi - b.lo) := by
      have := min_le_left r (b.hi - b.lo)
      linarith
    have hrc : r - min r (b.hi - b.lo) ≤ (bs.map (fun x => x.hi - x.lo)).sum := by
      rcases min_cases r (b.hi - b.lo) with ⟨hm, _⟩ | ⟨hm, _⟩
      · rw [hm]; simpa using htail0
      · rw [hm]
        simp only [List.map_cons, List.sum_cons] at hc
        linarith
    have ihs := ih (r - min r (b.hi - b.lo)) (fun x hx => hb x (List.mem_cons_of_mem b hx))
      hr0 hrc
    simp only [fillWeights, List.sum_cons, ihs, List.map_cons]
    ring

theorem fillWeights_bounds : ∀ (bs : List WBound) (r : ℚ),
    (∀ b ∈ bs, b.lo ≤ b.hi) → 0 ≤ r →
    List.Forall₂ (fun b w => b.lo ≤ w ∧ w ≤ b.hi) bs (fillWeights bs r) := by
  intro bs
  induction bs with
  | nil => intro r _ _; exact List.Forall₂.nil
  | cons b bs ih =>
    intro r hb h0
    have hble : b.lo ≤ b.hi := hb b (List.mem_cons_self b bs)
    have hcap0 : 0 ≤ b.hi - b.lo := by linarith
    have hstep0 : 0 ≤ min r (b.hi - b.lo) := le_min h0 hcap0
    have hr0 : 0 ≤ r - min r (b.hi - b.lo) := by
      have := min_le_left r (b.hi - b.lo)
      linarith
    refine List.Forall₂.cons ⟨by linarith, ?_⟩
      (ih _ (fun x hx => hb x (List.mem_cons_of_mem b hx)) hr0)
    have := min_le_right r (b.hi - b.lo)
    linarith

/-- C3: under a feasible constraint set (every lower bound at most its
upper bound, lower bounds summing to at most 1, upper bounds summing to at
least 1) the optimizer's weight vector sums to 1 within the 1e-6
tolerance — here exactly — and every weight respects its applicable
bounds. -/
theorem optimizer_feasible_weights (bs : List WBound)
    (hb : ∀ b ∈ bs, b.lo ≤ b.hi)
    (hlo : (bs.map WBound.lo).sum ≤ 1)
    (hhi : 1 ≤ (bs.map WBound.hi).sum) :
    |(optimizeFeasible bs).sum - 1| < 1 / 1000000
    ∧ List.Forall₂ (fun b w => b.lo ≤ w ∧ w ≤ b.hi) bs (optimizeFeasible bs) := by
  have h0 : 0 ≤ 1 - (bs.map WBound.lo).sum := by linarith
  have hc : 1 - (bs.map WBound.lo).sum ≤ (bs.map (fun b => b.hi - b.lo)).sum := by
    rw [sum_map_sub]
    linarith
  constructor
  · rw [optimizeFeasible, fillWeights_sum bs _ hb h0 hc]
    norm_num
  · exact fillWeights_bounds bs _ hb h0

/-- Witness for C3 at the concrete bound set `[[0,1], [0,1]]`. -/
theorem optimizer_feasible_weights_witness :
    |(optimizeFeasible [WBound.mk 0 1, WBound.mk 0 1]).sum - 1| < 1 / 1000000
    ∧ List.Forall₂ (fun b w => b.lo ≤ w ∧ w ≤ b.hi)
        [WBound.mk 0 1, WBound.mk 0 1]
        (optimizeFeasible [WBound.mk 0 1, WBound.mk 0 1]) := by
  refine optimizer_feasible_weights [WBound.mk 0 1, WBound.mk 0 1] ?_ ?_ ?_
  · intro b hb
    rcases List.mem_cons.1 hb with h | h
    · rw [h]; norm_num
    · rcases List.mem_cons.1 h with h1 | h1
      · rw [h1]; norm_num
      · exact absurd h1 (List.not_mem_nil b)
  · simp
  · simp

/-! ## C10: concentration metrics -/

/-- The strictly positive weight values,
`Object.values(weights).filter(w => w > 0)`. -/
def positiveWeights (weights : List (String × ℚ)) : List ℚ :=
  (weights.map Prod.snd).filter (fun w => decide (0 < w))

/-- Descending sort, `weightValues.sort((a, b) => b - a)`. -/
def sortDesc (l : List ℚ) : List ℚ :=
  l.mergeSort (fun a b => decide (b ≤ a))

/-- Herfindahl-Hirschman index: the sum of the squared weights. -/
def hhiOf (l : List ℚ) : ℚ :=
  (l.map (fun w => w * w)).sum

/-- Sum of the three largest weights,
`sortedWeights.slice(0, 3).reduce(...)`. -/
def top3Of (l : List ℚ) : ℚ :=
  ((sortDesc l).take 3).sum

/-- The double sum `Σ_i Σ_j |w_i - w_j|` of the Gini computation. -/
def giniSumOf (l : List ℚ) : ℚ :=
  (l.map (fun x => (l.map (fun y => |x - y|)).sum)).sum

/-- The result record of `calculateConcentrationMetrics`. -/
structure ConcentrationMetrics where
  hhi : ℚ
  effectiveAssets : ℚ
  maxWeight : ℚ
  top3Concentration : ℚ
  giniCoefficient : ℚ

/-- Embedding of `calculateConcentrationMetrics` from
`src/frontend/src/services/optimizationService.ts` (lines 343-385): filter
the strictly positive weights, then `hhi = Σ w²`,
`effectiveAssets = 1/hhi`, `maxWeight = max`, `top3Concentration` the sum
of the three largest, and the Gini coefficient
`ΣΣ|wᵢ - wⱼ| / (2 · n · Σw)`.  (The in-place `sort` only reorders the
value array, which no aggregate here depends on.) -/
def calculateConcentrationMetrics (weights : List (String × ℚ)) : ConcentrationMetrics :=
  let wv := positiveWeights weights
  { hhi := hhiOf wv
    effectiveAssets := 1 / hhiOf wv
    maxWeight := jsMax wv
    top3Concentration := top3Of wv
    giniCoefficient := giniSumOf wv / (2 * (wv.length : ℚ) * wv.sum) }

/-- Cauchy-Schwarz for a list of rationals: the squared sum is at most the
length times the sum of squares. -/
theorem list_sq_sum_le (l : List ℚ) :
    l.sum ^ 2 ≤ (l.length : ℚ) * (l.map (fun w => w * w)).sum := by
  have h1 : l.sum = ∑ i : Fin l.length, l.get i := by
    conv_lhs => rw [← List.ofFn_get l]
    exact List.sum_ofFn
  have h2 : (l.map (fun w => w * w)).sum = ∑ i : Fin l.length, l.get i * l.get i := by
    conv_lhs => rw [← List.ofFn_get l, List.map_ofFn]
    exact List.sum_ofFn
  have h3 : (∑ i : Fin l.length, l.get i) ^ 2
      ≤ ((Finset.univ : Finset (Fin l.length)).card : ℚ)
        * ∑ i : Fin l.length, l.get i ^ 2 :=
    sq_sum_le_card_mul_sum_sq
  rw [h1, h2]
  simpa [Finset.card_univ, pow_two] using h3

theorem sum_map_const_add (l : List ℚ) (x : ℚ) :
    (l.map (fun y => x + y)).sum = (l.length : ℚ) * x + l.sum := by
  induction l with
  | nil => simp
  | cons y ys ih =>
    simp only [List.map_cons, List.sum_cons, ih, List.length_cons]
    push_cast
    ring

theorem sum_map_affine (l : List ℚ) (c d : ℚ) :
    (l.map (fun x => c * x + d)).sum = c * l.sum + (l.length : ℚ) * d := by
  induction l with
  | nil => simp
  | cons y ys ih =>
    simp only [List.map_cons, List.sum_cons, ih, List.length_cons]
    push_cast
    ring

/-- C10: for a weights map whose n ≥ 1 strictly positive weights sum to 1,
the HHI lies in `[1/n, 1]`, the effective asset count `1/hhi` lies in
`[1, n]`, the top-3 concentration lies in `(0, 1]` and the Gini coefficient
lies in `[0, 1)`. -/
theorem concentrationMetrics_bounds (weights : List (String × ℚ))
    (hne : positiveWeights weights ≠ [])
    (hsum : (positiveWeights weights).sum = 1) :
    (1 / ((positiveWeights weights).length : ℚ)
        ≤ (calculateConcentrationMetrics weights).hhi
      ∧ (calculateConcentrationMetrics weights).hhi ≤ 1)
    ∧ (1 ≤ (calculateConcentrationMetrics weights).effectiveAssets
      ∧ (calculateConcentrationMetrics weights).effectiveAssets
          ≤ ((positiveWeights weights).length : ℚ))
    ∧ (0 < (calculateConcentrationMetrics weights).top3Concentration
      ∧ (calculateConcentrationMetrics weights).top3Concentration ≤ 1)
    ∧ (0 ≤ (calculateConcentrationMetrics weights).giniCoefficient
      ∧ (calculateConcentrationMetrics weights).giniCoefficient < 1) := by
  have hpos : ∀ w ∈ positiveWeights weights, 0 < w := by
    intro w hw
    rw [positiveWeights] at hw
    exact of_decide_eq_true (List.mem_filter.1 hw).2
  have hnonneg : ∀ w ∈ positiveWeights weights, 0 ≤ w :=
    fun w hw => le_of_lt (hpos w hw)
  have hn_pos : 0 < (positiveWeights weights).length := List.length_pos.2 hne
  have hnQ : (0 : ℚ) < ((positiveWeights weights).length : ℚ) := by exact_mod_cast hn_pos
  have hle1 : ∀ w ∈ positiveWeights weights, w ≤ 1 := by
    intro w hw
    have := List.single_le_sum hnonneg w hw
    rw [hsum] at this
    exact this
  have hcs : 1 ≤ ((positiveWeights weights).length : ℚ) * hhiOf (positiveWeights weights) := by
    have h := list_sq_sum_le (positiveWeights weights)
    rw [hsum] at h
    rw [hhiOf]
    calc (1 : ℚ) = 1 ^ 2 := by norm_num
    _ ≤ _ := h
  have hhi_le : hhiOf (positiveWeights weights) ≤ 1 := by
    rw [hhiOf]
    have h2 : ((positiveWeights weights).map (fun w => w * w)).sum
        ≤ ((positiveWeights weights).map (fun w => w)).sum :=
      List.sum_le_sum (fun w hw => by nlinarith [hpos w hw, hle1 w hw])
    have h3 : ((positiveWeights weights).map (fun w => w)).sum
        = (positiveWeights weights).sum := by simp
    rw [h3, hsum] at h2
    exact h2
  have hhi_pos : 0 < hhiOf (positiveWeights weights) := by
    rw [hhiOf]
    apply List.sum_pos
    · intro x hx
      rw [List.mem_map] at hx
      obtain ⟨w, hw, rfl⟩ := hx
      exact mul_pos (hpos w hw) (hpos w hw)
    · intro hnil
      rw [List.map_eq_nil_iff] at hnil
      exact hne hnil
  have hhi_ge : 1 / ((positiveWeights weights).length : ℚ)
      ≤ hhiOf (positiveWeights weights) := by
    rw [div_le_iff₀ hnQ]
    linarith [hcs]
  have hsort_perm : (sortDesc (positiveWeights weights)).Perm (positiveWeights weights) :=
    List.mergeSort_perm _ _
  have htop_le : top3Of (positiveWeights weights) ≤ 1 := by
    rw [top3Of]
    have hsub : List.Sublist ((sortDesc (positiveWeights weights)).take 3)
        (sortDesc (positiveWeights weights)) := List.take_sublist 3 _
    have h := List.Sublist.sum_le_sum hsub
      (fun x hx => hnonneg x (hsort_perm.subset hx))
    rw [hsort_perm.sum_eq, hsum] at h
    exact h
  have hsort_ne : sortDesc (positiveWeights weights) ≠ [] := by
    intro h0
    have hlen := hsort_perm.length_eq
    rw [h0] at hlen
    exact hne (List.length_eq_zero.1 hlen.symm)
  have htop_pos : 0 < top3Of (positiveWeights weights) := by
    rw [top3Of]
    apply List.sum_pos
    · intro x hx
      exact hpos x (hsort_perm.subset (List.mem_of_mem_take hx))
    · intro hnil
      rcases List.take_eq_nil_iff.1 hnil with h3 | h3
      · exact absurd h3 (by norm_num)
      · exact hsort_ne h3
  have hgini_den : (0 : ℚ)
      < 2 * ((positiveWeights weights).length : ℚ) * (positiveWeights weights).sum := by
    rw [hsum]
    nlinarith [hnQ]
  have hgini_num_nonneg : 0 ≤ giniSumOf (positiveWeights weights) := by
    rw [giniSumOf]
    apply List.sum_nonneg
    intro x hx
    rw [List.mem_map] at hx
    obtain ⟨w, hw, rfl⟩ := hx
    apply List.sum_nonneg
    intro y hy
    rw [List.mem_map] at hy
    obtain ⟨z, hz, rfl⟩ := hy
    exact abs_nonneg _
  have hgini_num_lt : giniSumOf (positiveWeights weights)
      < 2 * ((positiveWeights weights).length : ℚ) * (positiveWeights weights).sum := by
    rw [giniSumOf]
    have hinner : ∀ x ∈ positiveWeights weights,
        ((positiveWeights weights).map (fun y => |x - y|)).sum
          < ((positiveWeights weights).length : ℚ) * x + (positiveWeights weights).sum := by
      intro x hx
      have hlt : ((positiveWeights weights).map (fun y => |x - y|)).sum
          < ((positiveWeights weights).map (fun y => x + y)).sum := by
        apply List.sum_lt_sum_of_ne_nil hne
        intro y hy
        rw [abs_sub_lt_iff]
        constructor
        · linarith [hpos y hy]
        · linarith [hpos x hx]
      rw [sum_map_const_add] at hlt
      exact hlt
    have houter : ((positiveWeights weights).map
          (fun x => ((positiveWeights weights).map (fun y => |x - y|)).sum)).sum
        < ((positiveWeights weights).map
          (fun x => ((positiveWeights weights).length : ℚ) * x
            + (positiveWeights weights).sum)).sum := by
      apply List.sum_lt_sum_of_ne_nil hne
      exact hinner
    rw [sum_map_affine] at houter
    calc ((positiveWeights weights).map
          (fun x => ((positiveWeights weights).map (fun y => |x - y|)).sum)).sum
        < _ := houter
    _ = 2 * ((positiveWeights weights).length : ℚ) * (positiveWeights weights).sum := by
        ring
  refine ⟨⟨hhi_ge, hhi_le⟩, ⟨?_, ?_⟩, ⟨htop_pos, htop_le⟩, ⟨?_, ?_⟩⟩
  · show (1 : ℚ) ≤ 1 / hhiOf (positiveWeights weights)
    rw [le_div_iff₀ hhi_pos]
    linarith
  · show 1 / hhiOf (positiveWeights weights) ≤ ((positiveWeights weights).length : ℚ)
    rw [div_le_iff₀ hhi_pos]
    linarith [hcs]
  · show (0 : ℚ) ≤ giniSumOf (positiveWeights weights)
        / (2 * ((positiveWeights weights).length : ℚ) * (positiveWeights weights).sum)
    exact div_nonneg hgini_num_nonneg (le_of_lt hgini_den)
  · show giniSumOf (positiveWeights weights)
        / (2 * ((positiveWeights weights).length : ℚ) * (positiveWeights weights).sum) < 1
    rw [div_lt_one hgini_den]
    exact hgini_num_lt

/-- Witness for C10 at the concrete single-asset map `{A: 1}`. -/
theorem concentrationMetrics_bounds_witness :
    positiveWeights [("A", 1)] ≠ []
    ∧ (positiveWeights [("A", 1)]).sum = 1
    ∧ (0 ≤ (calculateConcentrationMetrics [("A", 1)]).giniCoefficient
        ∧ (calculateConcentrationMetrics [("A", 1)]).giniCoefficient < 1) :=
  ⟨by decide, by norm_num [positiveWeights],
    (concentrationMetrics_bounds [("A", 1)] (by decide) (by norm_num [positiveWeights])).2.2.2⟩

end PortfolioManager
